import Mathlib

/-!
Verification of the query/answer bridge of `php-queries.cpp`: the qmem arena
allocator, the slot registry, the `StaticQueue` ring buffers, and the network
answer-assembler state machines, shallowly embedded as executable Lean
definitions with their key invariants proved.
-/

set_option maxHeartbeats 1000000

namespace Kphp

/-! ### Arena allocator (`qmem`)

The pool owns a list of pages (index = page id, entry = page size), a
size-ordered free-block multimap `left`, and counters.  Blocks are modelled as
`(page, offset, size)` triples; `live` is the ghost list of allocations handed
out and not yet bulk-reclaimed. -/

def static_pages_n : Nat := 2

def page_size : Nat := 2 ^ 22

def max_mem : Nat := 2 ^ 27

def max_pages_n : Nat := 1000

structure Block where
  page : Nat
  off : Nat
  size : Nat
deriving DecidableEq, Repr

structure PoolState where
  pages : List Nat
  left : List Block
  live : List Block
  used_mem : Nat
  cur_mem : Nat
  generation : Nat
  inited : Bool
deriving DecidableEq, Repr

def initialState : PoolState :=
  { pages := [], left := [], live := [], used_mem := 0, cur_mem := 0,
    generation := 0, inited := false }

/-- `left.insert` of the C++ `std::multimap<size_t, void *>`: keep the list
sorted by size, inserting after all entries of equal size (upper bound). -/
def reg (b : Block) : List Block → List Block
  | [] => [b]
  | c :: rest => if b.size < c.size then b :: c :: rest else c :: reg b rest

/-- `left.lower_bound(n)` followed by `erase`: the first (smallest) free block
of size at least `n`, together with the remaining list. -/
def findFree (n : Nat) : List Block → Option (Block × List Block)
  | [] => none
  | c :: rest =>
    if n ≤ c.size then some (c, rest)
    else
      match findFree n rest with
      | none => none
      | some (b, r) => some (b, c :: r)

/-- `alloc_size = n >= page_size ? n : page_size` -/
def allocSizeOf (n : Nat) : Nat := max n page_size

/-- `qmem::alloc_at_least(n, use)`: acquire a fresh page of size
`max(n, page_size)` subject to the page-count and total-byte ceilings
(`none` models the fatal assert), register the unused tail as a free block,
and return the block at the start of the page. -/
def alloc_at_least (n use : Nat) (s : PoolState) : Option (Block × PoolState) :=
  let asz := allocSizeOf n
  if s.pages.length = max_pages_n ∨ asz > max_mem ∨ asz + s.cur_mem > max_mem then
    none
  else
    let pid := s.pages.length
    some (⟨pid, 0, use⟩,
      { s with
        pages := s.pages ++ [asz],
        left := if use < asz then reg ⟨pid, use, asz - use⟩ s.left else s.left })

/-- `qmem_malloc(n)`: bump `used_mem`, then best-fit lookup; on a hit split the
found block, on a miss acquire a fresh page.  The returned block is recorded in
the ghost `live` list. -/
def qmem_malloc (n : Nat) (s : PoolState) : Option (Block × PoolState) :=
  let s1 := { s with used_mem := s.used_mem + n }
  match findFree n s1.left with
  | none =>
    match alloc_at_least n n s1 with
    | none => none
    | some (b, s2) => some (b, { s2 with live := b :: s2.live })
  | some (blk, rest) =>
    let b : Block := ⟨blk.page, blk.off, n⟩
    let newLeft :=
      if blk.size - n > 0 then reg ⟨blk.page, blk.off + n, blk.size - n⟩ rest else rest
    some (b, { s1 with left := newLeft, live := b :: s1.live })

/-- `qmem_malloc_tmp(n)`: the non-committing peek.  On a hit the pool is
untouched; on a miss `alloc_at_least(n, 0)` acquires a fresh page and registers
all of it as free. -/
def qmem_malloc_tmp (n : Nat) (s : PoolState) : Option (Block × PoolState) :=
  match findFree n s.left with
  | none => alloc_at_least n 0 s
  | some (blk, _) => some (blk, s)

/-- `qmem_malloc0(n)`: `qmem_malloc` followed by a zero-fill (which has no
effect on the accounting state). -/
def qmem_malloc0 (n : Nat) (s : PoolState) : Option (Block × PoolState) :=
  qmem_malloc n s

/-- The C loop `for (i = 0; i < pages_n; i++) reg(pages[i], pages_size[i])`,
folded over an accumulator starting at index `i`. -/
def regPages : List Nat → Nat → List Block → List Block
  | [], _, acc => acc
  | sz :: rest, i, acc => regPages rest (i + 1) (reg ⟨i, 0, sz⟩ acc)

def pagesAsFree (pages : List Nat) : List Block := regPages pages 0 []

/-- `qmem_free_ptrs()`: soft reclaim.  If more than half of `cur_mem` is used,
drop the free index and re-register every page whole; the generation counter is
bumped unconditionally. -/
def qmem_free_ptrs (s : PoolState) : PoolState :=
  let s1 :=
    if s.used_mem + s.used_mem > s.cur_mem then
      { s with left := pagesAsFree s.pages, used_mem := 0, live := [] }
    else s
  { s1 with generation := s1.generation + 1 }

/-- `qmem_init()`: asserts the pool is torn down and the free index empty, then
installs exactly the static pages.  Note: `used_mem` is *not* reset. -/
def qmem_init (s : PoolState) : Option PoolState :=
  if s.inited then none
  else if s.left.isEmpty then
    some { s with
      cur_mem := static_pages_n * page_size,
      pages := List.replicate static_pages_n page_size,
      left := pagesAsFree (List.replicate static_pages_n page_size),
      inited := true }
  else none

/-- `qmem_clear()`: hard reclaim.  Frees the dynamic pages, clears the index,
bumps the generation and marks the pool uninitialized. -/
def qmem_clear (s : PoolState) : Option PoolState :=
  if s.inited then
    some { s with
      left := [], used_mem := 0, live := [],
      inited := false, generation := s.generation + 1 }
  else none

/-! Operation sequences over the pool (the operations named by the accounting
invariant: init, allocate, zero-allocate, allocate-peek, soft reclaim). -/

inductive QmemOp where
  | opInit
  | alloc (n : Nat)
  | alloc0 (n : Nat)
  | allocTmp (n : Nat)
  | softReclaim
deriving DecidableEq, Repr

def stepOp : QmemOp → PoolState → Option PoolState
  | .opInit, s => qmem_init s
  | .alloc n, s => (qmem_malloc n s).map Prod.snd
  | .alloc0 n, s => (qmem_malloc0 n s).map Prod.snd
  | .allocTmp n, s => (qmem_malloc_tmp n s).map Prod.snd
  | .softReclaim, s => some (qmem_free_ptrs s)

def runOps : List QmemOp → PoolState → Option PoolState
  | [], s => some s
  | op :: ops, s =>
    match stepOp op s with
    | none => none
    | some s1 => runOps ops s1

/-! ### The accounting invariant -/

def Block.disj (a b : Block) : Prop :=
  a.page ≠ b.page ∨ a.off + a.size ≤ b.off ∨ b.off + b.size ≤ a.off

def sumSizes (l : List Block) : Nat := (l.map Block.size).sum

def inPage (pages : List Nat) (b : Block) : Prop :=
  b.page < pages.length ∧ b.off + b.size ≤ pages.getD b.page 0

def Inv (s : PoolState) : Prop :=
  (s.left ++ s.live).Pairwise Block.disj ∧
  (∀ b ∈ s.left ++ s.live, inPage s.pages b) ∧
  s.used_mem = sumSizes s.live ∧
  sumSizes s.live + sumSizes s.left = s.pages.sum ∧
  s.inited = true

/-! ### Helper lemmas about the free-block multimap -/

theorem reg_perm (b : Block) (l : List Block) : (reg b l).Perm (b :: l) := by
  induction l with
  | nil => simp [reg]
  | cons c rest ih =>
    by_cases h : b.size < c.size
    · simp [reg, h]
    · simp only [reg, if_neg h]
      exact (ih.cons c).trans (List.Perm.swap b c rest)

theorem findFree_spec (n : Nat) (l : List Block) (b : Block) (r : List Block)
    (h : findFree n l = some (b, r)) : l.Perm (b :: r) ∧ n ≤ b.size := by
  induction l generalizing r with
  | nil => simp [findFree] at h
  | cons c rest ih =>
    by_cases hc : n ≤ c.size
    · simp only [findFree, if_pos hc, Option.some.injEq, Prod.mk.injEq] at h
      obtain ⟨rfl, rfl⟩ := h
      exact ⟨List.Perm.refl _, hc⟩
    · simp only [findFree, if_neg hc] at h
      cases hm : findFree n rest with
      | none => rw [hm] at h; exact absurd h (by simp)
      | some p =>
        obtain ⟨b1, r1⟩ := p
        rw [hm] at h
        simp only [Option.some.injEq, Prod.mk.injEq] at h
        obtain ⟨rfl, rfl⟩ := h
        obtain ⟨hp, hn⟩ := ih r1 hm
        exact ⟨(hp.cons c).trans (List.Perm.swap _ c r1), hn⟩

theorem sumSizes_nil : sumSizes [] = 0 := rfl

theorem sumSizes_cons (b : Block) (l : List Block) :
    sumSizes (b :: l) = b.size + sumSizes l := by
  simp [sumSizes]

theorem sumSizes_append (l1 l2 : List Block) :
    sumSizes (l1 ++ l2) = sumSizes l1 + sumSizes l2 := by
  simp [sumSizes]

theorem sumSizes_perm {l1 l2 : List Block} (h : l1.Perm l2) :
    sumSizes l1 = sumSizes l2 :=
  (h.map Block.size).sum_eq

theorem disj_symm {a b : Block} (h : Block.disj a b) : Block.disj b a := by
  rcases h with h | h | h
  · exact Or.inl (Ne.symm h)
  · exact Or.inr (Or.inr h)
  · exact Or.inr (Or.inl h)

/-- A sub-interval of `c` (same page, contained offsets) is disjoint from
everything `c` is disjoint from. -/
theorem disj_of_sub {c x : Block} (h : Block.disj c x) (a : Block)
    (hp : a.page = c.page) (ho : c.off ≤ a.off)
    (he : a.off + a.size ≤ c.off + c.size) : Block.disj a x := by
  rcases h with h | h | h
  · exact Or.inl (hp ▸ h)
  · exact Or.inr (Or.inl (by omega))
  · exact Or.inr (Or.inr (by omega))

theorem inPage_of_sub {pages : List Nat} {c : Block} (h : inPage pages c)
    (a : Block) (hp : a.page = c.page) (_ho : c.off ≤ a.off)
    (he : a.off + a.size ≤ c.off + c.size) : inPage pages a := by
  obtain ⟨h1, h2⟩ := h
  exact ⟨hp ▸ h1, by rw [hp]; omega⟩

theorem getD_append_lt (l l' : List Nat) (n d : Nat) (h : n < l.length) :
    (l ++ l').getD n d = l.getD n d := by
  induction l generalizing n with
  | nil => simp at h
  | cons a t ih =>
    cases n with
    | zero => rfl
    | succ m => simpa using ih m (by simpa using h)

theorem getD_append_len (l l' : List Nat) (d : Nat) :
    (l ++ l').getD l.length d = l'.getD 0 d := by
  induction l with
  | nil => rfl
  | cons a t ih => simpa using ih

theorem inPage_append {pages : List Nat} {x : Nat} {b : Block}
    (h : inPage pages b) : inPage (pages ++ [x]) b := by
  obtain ⟨h1, h2⟩ := h
  refine ⟨by simp; omega, ?_⟩
  rw [getD_append_lt _ _ _ _ h1]
  exact h2

/-! ### Whole pages as free blocks -/

def pageBlocks : List Nat → Nat → List Block
  | [], _ => []
  | sz :: rest, i => ⟨i, 0, sz⟩ :: pageBlocks rest (i + 1)

theorem pageBlocks_mem (l : List Nat) (i : Nat) (b : Block)
    (h : b ∈ pageBlocks l i) :
    i ≤ b.page ∧ b.page < i + l.length ∧ b.off = 0 ∧ b.size = l.getD (b.page - i) 0 := by
  induction l generalizing i with
  | nil => simp [pageBlocks] at h
  | cons sz rest ih =>
    simp only [pageBlocks, List.mem_cons] at h
    rcases h with rfl | h
    · simp
    · obtain ⟨h1, h2, h3, h4⟩ := ih (i + 1) h
      refine ⟨by omega, by simp; omega, h3, ?_⟩
      rw [h4]
      have : b.page - i = (b.page - (i + 1)) + 1 := by omega
      rw [this]
      rfl

theorem pageBlocks_sum (l : List Nat) (i : Nat) :
    sumSizes (pageBlocks l i) = l.sum := by
  induction l generalizing i with
  | nil => rfl
  | cons sz rest ih => simp [pageBlocks, sumSizes_cons, ih]

theorem pageBlocks_pairwise (l : List Nat) (i : Nat) :
    (pageBlocks l i).Pairwise Block.disj := by
  induction l generalizing i with
  | nil => exact List.Pairwise.nil
  | cons sz rest ih =>
    refine List.Pairwise.cons ?_ (ih (i + 1))
    intro b hb
    have := pageBlocks_mem _ _ _ hb
    exact Or.inl (by simp only []; omega)

theorem regPages_perm (l : List Nat) (i : Nat) (acc : List Block) :
    (regPages l i acc).Perm (pageBlocks l i ++ acc) := by
  induction l generalizing i acc with
  | nil => simp [regPages, pageBlocks]
  | cons sz rest ih =>
    have h1 := ih (i + 1) (reg ⟨i, 0, sz⟩ acc)
    have h2 : (pageBlocks rest (i + 1) ++ reg ⟨i, 0, sz⟩ acc).Perm
        (pageBlocks rest (i + 1) ++ (⟨i, 0, sz⟩ :: acc)) :=
      (reg_perm _ _).append_left _
    have h3 : (pageBlocks rest (i + 1) ++ (⟨i, 0, sz⟩ :: acc)).Perm
        ((⟨i, 0, sz⟩ : Block) :: (pageBlocks rest (i + 1) ++ acc)) :=
      List.perm_middle
    exact (h1.trans (h2.trans h3))

theorem pagesAsFree_perm (pages : List Nat) :
    (pagesAsFree pages).Perm (pageBlocks pages 0) := by
  simpa using regPages_perm pages 0 []

/-! ### Pairwise-disjointness of the updated block lists -/

theorem pairwise_cons_middle {nb : Block} {rest live : List Block}
    (h : (rest ++ live).Pairwise Block.disj)
    (hd : ∀ x ∈ rest ++ live, Block.disj nb x) :
    (rest ++ nb :: live).Pairwise Block.disj :=
  (List.perm_middle.pairwise_iff disj_symm).mpr (List.pairwise_cons.mpr ⟨hd, h⟩)

theorem reg_insert_perm (nf nb : Block) (rest live : List Block) :
    (reg nf rest ++ nb :: live).Perm (nf :: nb :: (rest ++ live)) :=
  (((reg_perm nf rest).append_right _).trans (List.Perm.cons nf List.perm_middle))

theorem pairwise_reg_insert {nf nb : Block} {rest live : List Block}
    (h : (rest ++ live).Pairwise Block.disj)
    (hnf : ∀ x ∈ rest ++ live, Block.disj nf x)
    (hnb : ∀ x ∈ rest ++ live, Block.disj nb x)
    (hfb : Block.disj nf nb) :
    (reg nf rest ++ nb :: live).Pairwise Block.disj := by
  apply ((reg_insert_perm nf nb rest live).pairwise_iff disj_symm).mpr
  refine List.pairwise_cons.mpr ⟨?_, List.pairwise_cons.mpr ⟨hnb, h⟩⟩
  intro x hx
  rcases List.mem_cons.mp hx with rfl | hx
  · exact hfb
  · exact hnf x hx

theorem mem_reg_insert {b nf nb : Block} {rest live : List Block}
    (h : b ∈ reg nf rest ++ nb :: live) : b = nf ∨ b = nb ∨ b ∈ rest ++ live := by
  have := (reg_insert_perm nf nb rest live).mem_iff.mp h
  simpa using this

theorem mem_cons_middle {b nb : Block} {rest live : List Block}
    (h : b ∈ rest ++ nb :: live) : b = nb ∨ b ∈ rest ++ live := by
  have := List.perm_middle.mem_iff.mp h
  simpa using this

/-! ### Invariant preservation -/

/-- Best-fit hit: splitting the found block preserves the invariant. -/
theorem inv_hit (s : PoolState) (n : Nat) (blk : Block) (rest : List Block)
    (hI : Inv s) (hperm : s.left.Perm (blk :: rest)) (hn : n ≤ blk.size) :
    Inv { s with
      used_mem := s.used_mem + n,
      left := if blk.size - n > 0 then reg ⟨blk.page, blk.off + n, blk.size - n⟩ rest else rest,
      live := ⟨blk.page, blk.off, n⟩ :: s.live } := by
  obtain ⟨hP, hB, hU, hT, hIn⟩ := hI
  have hPerm0 : (s.left ++ s.live).Perm (blk :: (rest ++ s.live)) :=
    hperm.append_right s.live
  have hP1 := (hPerm0.pairwise_iff disj_symm).mp hP
  obtain ⟨hblkd, hrest⟩ := List.pairwise_cons.mp hP1
  have hblkPage : inPage s.pages blk :=
    hB blk (hPerm0.mem_iff.mpr (List.mem_cons_self _ _))
  have hmemOld : ∀ x ∈ rest ++ s.live, x ∈ s.left ++ s.live := fun x hx =>
    hPerm0.mem_iff.mpr (List.mem_cons_of_mem _ hx)
  have hsl : sumSizes s.left = blk.size + sumSizes rest := by
    rw [sumSizes_perm hperm, sumSizes_cons]
  refine ⟨?_, ?_, ?_, ?_, hIn⟩
  · -- pairwise disjointness
    dsimp only
    by_cases hsplit : blk.size - n > 0
    · rw [if_pos hsplit]
      refine pairwise_reg_insert hrest ?_ ?_ ?_
      · intro x hx
        exact disj_of_sub (hblkd x hx) _ rfl (by dsimp only; omega) (by dsimp only; omega)
      · intro x hx
        exact disj_of_sub (hblkd x hx) _ rfl (le_refl _) (by dsimp only; omega)
      · exact Or.inr (Or.inr (by dsimp only; omega))
    · rw [if_neg hsplit]
      have hbe : (⟨blk.page, blk.off, n⟩ : Block) = blk := by
        have : blk.size = n := by omega
        cases blk; simp_all
      rw [hbe]
      exact pairwise_cons_middle hrest hblkd
  · -- all blocks lie inside their pages
    intro b hb
    dsimp only at hb ⊢
    by_cases hsplit : blk.size - n > 0
    · rw [if_pos hsplit] at hb
      rcases mem_reg_insert hb with rfl | rfl | hb
      · exact inPage_of_sub hblkPage _ rfl (by dsimp only; omega) (by dsimp only; omega)
      · exact inPage_of_sub hblkPage _ rfl (le_refl _) (by dsimp only; omega)
      · exact hB b (hmemOld b hb)
    · rw [if_neg hsplit] at hb
      rcases mem_cons_middle hb with rfl | hb
      · exact inPage_of_sub hblkPage _ rfl (le_refl _) (by dsimp only; omega)
      · exact hB b (hmemOld b hb)
  · -- used bytes count the live blocks
    dsimp only
    rw [sumSizes_cons, hU]
    dsimp only
    omega
  · -- used + free = reserved
    dsimp only
    by_cases hsplit : blk.size - n > 0
    · rw [if_pos hsplit, sumSizes_cons]
      have hregs : sumSizes (reg ⟨blk.page, blk.off + n, blk.size - n⟩ rest) =
          (blk.size - n) + sumSizes rest := by
        rw [sumSizes_perm (reg_perm _ _), sumSizes_cons]
      rw [hregs]
      dsimp only
      omega
    · rw [if_neg hsplit, sumSizes_cons]
      dsimp only
      omega

/-- Fresh-page allocation for `qmem_malloc` (best-fit miss) preserves the
invariant. -/
theorem inv_fresh_malloc (s : PoolState) (n asz : Nat) (hI : Inv s)
    (hn : n ≤ asz) :
    Inv { s with
      used_mem := s.used_mem + n,
      pages := s.pages ++ [asz],
      left := if n < asz then reg ⟨s.pages.length, n, asz - n⟩ s.left else s.left,
      live := ⟨s.pages.length, 0, n⟩ :: s.live } := by
  obtain ⟨hP, hB, hU, hT, hIn⟩ := hI
  have hfresh : ∀ x ∈ s.left ++ s.live, x.page < s.pages.length := fun x hx => (hB x hx).1
  refine ⟨?_, ?_, ?_, ?_, hIn⟩
  · dsimp only
    by_cases hsplit : n < asz
    · rw [if_pos hsplit]
      refine pairwise_reg_insert hP ?_ ?_ ?_
      · intro x hx
        exact Or.inl (by dsimp only; have := hfresh x hx; omega)
      · intro x hx
        exact Or.inl (by dsimp only; have := hfresh x hx; omega)
      · exact Or.inr (Or.inr (by dsimp only; omega))
    · rw [if_neg hsplit]
      refine pairwise_cons_middle hP ?_
      intro x hx
      exact Or.inl (by dsimp only; have := hfresh x hx; omega)
  · intro b hb
    dsimp only at hb ⊢
    have hnew : ∀ c : Block, c.page = s.pages.length → c.off + c.size ≤ asz →
        inPage (s.pages ++ [asz]) c := by
      intro c h1 h2
      refine ⟨by simp [h1], ?_⟩
      rw [h1, getD_append_len]
      simpa using h2
    by_cases hsplit : n < asz
    · rw [if_pos hsplit] at hb
      rcases mem_reg_insert hb with rfl | rfl | hb
      · exact hnew _ rfl (by dsimp only; omega)
      · exact hnew _ rfl (by dsimp only; omega)
      · exact inPage_append (hB b hb)
    · rw [if_neg hsplit] at hb
      rcases mem_cons_middle hb with rfl | hb
      · exact hnew _ rfl (by dsimp only; omega)
      · exact inPage_append (hB b hb)
  · dsimp only
    rw [sumSizes_cons, hU]
    dsimp only
    omega
  · dsimp only
    rw [List.sum_append]
    by_cases hsplit : n < asz
    · rw [if_pos hsplit, sumSizes_cons]
      have hregs : sumSizes (reg ⟨s.pages.length, n, asz - n⟩ s.left) =
          (asz - n) + sumSizes s.left := by
        rw [sumSizes_perm (reg_perm _ _), sumSizes_cons]
      rw [hregs]
      dsimp only
      simp only [List.sum_cons, List.sum_nil]
      omega
    · rw [if_neg hsplit, sumSizes_cons]
      dsimp only
      simp only [List.sum_cons, List.sum_nil]
      omega

/-- Fresh-page acquisition by the non-committing peek (`use = 0`) preserves the
invariant: the whole page is registered as free. -/
theorem inv_fresh_tmp (s : PoolState) (asz : Nat) (hI : Inv s) :
    Inv { s with
      pages := s.pages ++ [asz],
      left := reg ⟨s.pages.length, 0, asz⟩ s.left } := by
  obtain ⟨hP, hB, hU, hT, hIn⟩ := hI
  have hfresh : ∀ x ∈ s.left ++ s.live, x.page < s.pages.length := fun x hx => (hB x hx).1
  have hperm : (reg ⟨s.pages.length, 0, asz⟩ s.left ++ s.live).Perm
      ((⟨s.pages.length, 0, asz⟩ : Block) :: (s.left ++ s.live)) :=
    (reg_perm _ _).append_right s.live
  refine ⟨?_, ?_, ?_, ?_, hIn⟩
  · dsimp only
    apply (hperm.pairwise_iff disj_symm).mpr
    refine List.pairwise_cons.mpr ⟨?_, hP⟩
    intro x hx
    exact Or.inl (by dsimp only; have := hfresh x hx; omega)
  · intro b hb
    dsimp only at hb ⊢
    rcases List.mem_cons.mp (hperm.mem_iff.mp hb) with rfl | hb
    · refine ⟨by simp, ?_⟩
      dsimp only
      rw [getD_append_len]
      simp
    · exact inPage_append (hB b hb)
  · exact hU
  · dsimp only
    rw [List.sum_append, sumSizes_perm (reg_perm _ _), sumSizes_cons]
    dsimp only
    simp only [List.sum_cons, List.sum_nil]
    omega

/-- Soft reclaim preserves the invariant. -/
theorem inv_free_ptrs (s : PoolState) (hI : Inv s) : Inv (qmem_free_ptrs s) := by
  obtain ⟨hP, hB, hU, hT, hIn⟩ := hI
  unfold qmem_free_ptrs
  by_cases hc : s.used_mem + s.used_mem > s.cur_mem
  · rw [if_pos hc]
    have hperm : (pagesAsFree s.pages).Perm (pageBlocks s.pages 0) := pagesAsFree_perm s.pages
    refine ⟨?_, ?_, ?_, ?_, hIn⟩
    · dsimp only
      rw [List.append_nil]
      exact (hperm.pairwise_iff disj_symm).mpr (pageBlocks_pairwise s.pages 0)
    · intro b hb
      dsimp only at hb ⊢
      rw [List.append_nil] at hb
      obtain ⟨h1, h2, h3, h4⟩ := pageBlocks_mem _ _ _ (hperm.mem_iff.mp hb)
      refine ⟨by omega, ?_⟩
      rw [h3, h4]
      simp
    · rfl
    · dsimp only
      rw [sumSizes_perm hperm, pageBlocks_sum, sumSizes_nil]
      omega
  · rw [if_neg hc]
    exact ⟨hP, hB, hU, hT, hIn⟩

instance blockDisjDecidable : ∀ a b : Block, Decidable (Block.disj a b) := fun a b => by
  unfold Block.disj; infer_instance

instance inPageDecidable (pages : List Nat) : DecidablePred (inPage pages) := fun b => by
  unfold inPage; infer_instance

instance invDecidable : DecidablePred Inv := fun s => by
  unfold Inv; infer_instance

/-- Characterization of a successful `alloc_at_least`. -/
theorem alloc_at_least_spec {n use : Nat} {s : PoolState} {b : Block}
    {s' : PoolState} (h : alloc_at_least n use s = some (b, s')) :
    b = ⟨s.pages.length, 0, use⟩ ∧
    s' = { s with
      pages := s.pages ++ [allocSizeOf n],
      left := if use < allocSizeOf n then
        reg ⟨s.pages.length, use, allocSizeOf n - use⟩ s.left else s.left } := by
  simp only [alloc_at_least] at h
  by_cases hc : s.pages.length = max_pages_n ∨ allocSizeOf n > max_mem ∨
      allocSizeOf n + s.cur_mem > max_mem
  · rw [if_pos hc] at h
    exact absurd h (by simp)
  · rw [if_neg hc] at h
    simp only [Option.some.injEq, Prod.mk.injEq] at h
    exact ⟨h.1.symm, h.2.symm⟩

/-- `qmem_malloc` preserves the invariant. -/
theorem inv_malloc {n : Nat} {s : PoolState} (hI : Inv s) {b : Block}
    {s' : PoolState} (h : qmem_malloc n s = some (b, s')) : Inv s' := by
  rcases hf : findFree n s.left with _ | ⟨blk, rest⟩
  · simp only [qmem_malloc, hf] at h
    rcases ha : alloc_at_least n n { s with used_mem := s.used_mem + n } with _ | ⟨b2, s2⟩
    · rw [ha] at h
      simp at h
    · rw [ha] at h
      simp only [Option.some.injEq, Prod.mk.injEq] at h
      obtain ⟨rfl, rfl⟩ := h
      obtain ⟨rfl, rfl⟩ := alloc_at_least_spec ha
      exact inv_fresh_malloc s n (allocSizeOf n) hI (le_max_left _ _)
  · simp only [qmem_malloc, hf] at h
    simp only [Option.some.injEq, Prod.mk.injEq] at h
    obtain ⟨rfl, rfl⟩ := h
    obtain ⟨hperm, hn⟩ := findFree_spec n s.left blk rest hf
    exact inv_hit s n blk rest hI hperm hn

/-- `qmem_malloc_tmp` preserves the invariant. -/
theorem inv_malloc_tmp {n : Nat} {s : PoolState} (hI : Inv s) {b : Block}
    {s' : PoolState} (h : qmem_malloc_tmp n s = some (b, s')) : Inv s' := by
  rcases hf : findFree n s.left with _ | ⟨blk, rest⟩
  · simp only [qmem_malloc_tmp, hf] at h
    obtain ⟨rfl, rfl⟩ := alloc_at_least_spec h
    have hpos : 0 < allocSizeOf n :=
      lt_of_lt_of_le (by norm_num [page_size]) (le_max_right n page_size)
    rw [if_pos hpos, Nat.sub_zero]
    exact inv_fresh_tmp s (allocSizeOf n) hI
  · simp only [qmem_malloc_tmp, hf] at h
    simp only [Option.some.injEq, Prod.mk.injEq] at h
    obtain ⟨rfl, rfl⟩ := h
    exact hI

/-- Every operation of the invariant claim preserves the invariant. -/
theorem inv_stepOp {op : QmemOp} {s s' : PoolState} (hI : Inv s)
    (h : stepOp op s = some s') : Inv s' := by
  cases op with
  | opInit =>
    have hinit : s.inited = true := hI.2.2.2.2
    simp [stepOp, qmem_init, hinit] at h
  | alloc n =>
    rcases hm : qmem_malloc n s with _ | ⟨b, s2⟩
    · simp [stepOp, hm] at h
    · simp only [stepOp, hm, Option.map_some'] at h
      obtain rfl := Option.some.injEq _ _ ▸ h
      exact inv_malloc hI hm
  | alloc0 n =>
    rcases hm : qmem_malloc n s with _ | ⟨b, s2⟩
    · simp [stepOp, qmem_malloc0, hm] at h
    · simp only [stepOp, qmem_malloc0, hm, Option.map_some'] at h
      obtain rfl := Option.some.injEq _ _ ▸ h
      exact inv_malloc hI hm
  | allocTmp n =>
    rcases hm : qmem_malloc_tmp n s with _ | ⟨b, s2⟩
    · simp [stepOp, hm] at h
    · simp only [stepOp, hm, Option.map_some'] at h
      obtain rfl := Option.some.injEq _ _ ▸ h
      exact inv_malloc_tmp hI hm
  | softReclaim =>
    simp only [stepOp, Option.some.injEq] at h
    exact h ▸ inv_free_ptrs s hI

/-- The invariant holds after every prefix of a run. -/
theorem runOps_inv (ops : List QmemOp) (s : PoolState) (hI : Inv s)
    (s' : PoolState) (h : runOps ops s = some s') : Inv s' := by
  induction ops generalizing s with
  | nil =>
    simp only [runOps, Option.some.injEq] at h
    exact h ▸ hI
  | cons op rest ih =>
    rcases hstep : stepOp op s with _ | s1
    · simp [runOps, hstep] at h
    · simp only [runOps, hstep] at h
      exact ih s1 (inv_stepOp hI hstep) h

/-- The pool state right after `php_queries_start` (`qmem_init` on a pristine
pool): the two static pages, each registered whole as a free block. -/
def postInitState : PoolState :=
  { pages := [page_size, page_size],
    left := [⟨0, 0, page_size⟩, ⟨1, 0, page_size⟩],
    live := [], used_mem := 0, cur_mem := 2 * page_size,
    generation := 0, inited := true }

theorem qmem_init_initial : qmem_init initialState = some postInitState := by decide

theorem postInit_inv : Inv postInitState := by decide

/-- C1 (amended): in any sequence of `init` / `allocate` / `zero_allocate` /
`allocate_peek` / `soft_reclaim` operations in which `qmem_init` is the first
operation (on the pristine pool), after every operation no two live
allocations overlap, and `used_mem` plus the sum of all free-block sizes
equals the sum of all page sizes held by the pool (static and dynamic). -/
theorem qmem_accounting_invariant (ops : List QmemOp) (s' : PoolState)
    (h : runOps (QmemOp.opInit :: ops) initialState = some s') :
    s'.live.Pairwise Block.disj ∧
    s'.used_mem + sumSizes s'.left = s'.pages.sum := by
  simp only [runOps, stepOp, qmem_init_initial] at h
  have hI := runOps_inv ops postInitState postInit_inv s' h
  obtain ⟨hP, _, hU, hT, _⟩ := hI
  refine ⟨List.Pairwise.sublist (List.sublist_append_right _ _) hP, ?_⟩
  omega

/-- C1 counterexample: the claim as stated quantifies over arbitrary sequences
of the five operations; the sequence `allocate(page_size); init()` is accepted
by the code (both of `qmem_init`'s asserts pass because a whole-page allocation
leaves the free index empty), yet after `init` the accounting equation fails:
`used_mem` is `page_size` (it is not reset by `qmem_init`) while the two static
pages are both fully free. -/
theorem qmem_accounting_counterexample :
    ∃ s', runOps [QmemOp.alloc page_size, QmemOp.opInit] initialState = some s' ∧
      s'.used_mem + sumSizes s'.left ≠ s'.pages.sum := by
  refine ⟨{ pages := [page_size, page_size],
            left := [⟨0, 0, page_size⟩, ⟨1, 0, page_size⟩],
            live := [⟨0, 0, page_size⟩], used_mem := page_size,
            cur_mem := 2 * page_size, generation := 0, inited := true },
          by decide, by decide⟩

theorem qmem_accounting_invariant_witness :
    postInitState.live.Pairwise Block.disj ∧
    postInitState.used_mem + sumSizes postInitState.left = postInitState.pages.sum :=
  qmem_accounting_invariant [] postInitState (by decide)

/-- C9: `allocate_peek` (`qmem_malloc_tmp`) is not read-only on a miss.  When a
free block of size at least `n` exists, the peek returns it and leaves the pool
completely unchanged; when none exists, a successful peek acquires a brand-new
dynamic page of size `max(n, page_size)`, appends it to the page list, and
registers the entire page in the free-block index (leaving `used_mem` and the
live allocations unchanged). -/
theorem qmem_malloc_tmp_effect (n : Nat) (s : PoolState) :
    (∀ blk rest, findFree n s.left = some (blk, rest) →
      qmem_malloc_tmp n s = some (blk, s)) ∧
    (findFree n s.left = none → ∀ b s', qmem_malloc_tmp n s = some (b, s') →
      s' = { s with
        pages := s.pages ++ [allocSizeOf n],
        left := reg ⟨s.pages.length, 0, allocSizeOf n⟩ s.left } ∧
      s'.pages.length = s.pages.length + 1) := by
  constructor
  · intro blk rest hf
    simp [qmem_malloc_tmp, hf]
  · intro hf b s' h
    simp only [qmem_malloc_tmp, hf] at h
    obtain ⟨rfl, rfl⟩ := alloc_at_least_spec h
    have hpos : 0 < allocSizeOf n :=
      lt_of_lt_of_le (by norm_num [page_size]) (le_max_right n page_size)
    rw [if_pos hpos, Nat.sub_zero]
    constructor
    · rfl
    · simp

theorem qmem_malloc_tmp_effect_witness :
    (qmem_malloc_tmp 7 postInitState = some (⟨0, 0, page_size⟩, postInitState)) ∧
    ({ initialState with
        pages := [page_size], left := [⟨0, 0, page_size⟩] } : PoolState) =
      { initialState with
        pages := initialState.pages ++ [allocSizeOf 7],
        left := reg ⟨initialState.pages.length, 0, allocSizeOf 7⟩ initialState.left } :=
  ⟨(qmem_malloc_tmp_effect 7 postInitState).1 ⟨0, 0, page_size⟩
      [⟨1, 0, page_size⟩] (by decide),
   ((qmem_malloc_tmp_effect 7 initialState).2 (by decide) ⟨0, 0, 0⟩
      { initialState with pages := [page_size], left := [⟨0, 0, page_size⟩] }
      (by decide)).1⟩

/-! ### Generation counter: extended operation list (adds `qmem_clear`) -/

inductive QmemOpX where
  | base (op : QmemOp)
  | hardReclaim
deriving DecidableEq, Repr

def stepOpX : QmemOpX → PoolState → Option PoolState
  | .base op, s => stepOp op s
  | .hardReclaim, s => qmem_clear s

def runOpsX : List QmemOpX → PoolState → Option PoolState
  | [], s => some s
  | op :: ops, s =>
    match stepOpX op s with
    | none => none
    | some s1 => runOpsX ops s1

def isReclaimOp : QmemOpX → Bool
  | .base .softReclaim => true
  | .hardReclaim => true
  | _ => false

theorem qmem_malloc_generation {n : Nat} {s : PoolState} {b : Block}
    {s' : PoolState} (h : qmem_malloc n s = some (b, s')) :
    s'.generation = s.generation := by
  rcases hf : findFree n s.left with _ | ⟨blk, rest⟩
  · simp only [qmem_malloc, hf] at h
    rcases ha : alloc_at_least n n { s with used_mem := s.used_mem + n } with _ | ⟨b2, s2⟩
    · rw [ha] at h
      simp at h
    · rw [ha] at h
      simp only [Option.some.injEq, Prod.mk.injEq] at h
      obtain ⟨rfl, rfl⟩ := h
      obtain ⟨rfl, rfl⟩ := alloc_at_least_spec ha
      rfl
  · simp only [qmem_malloc, hf] at h
    simp only [Option.some.injEq, Prod.mk.injEq] at h
    obtain ⟨rfl, rfl⟩ := h
    rfl

theorem qmem_malloc_tmp_generation {n : Nat} {s : PoolState} {b : Block}
    {s' : PoolState} (h : qmem_malloc_tmp n s = some (b, s')) :
    s'.generation = s.generation := by
  rcases hf : findFree n s.left with _ | ⟨blk, rest⟩
  · simp only [qmem_malloc_tmp, hf] at h
    obtain ⟨rfl, rfl⟩ := alloc_at_least_spec h
    rfl
  · simp only [qmem_malloc_tmp, hf] at h
    simp only [Option.some.injEq, Prod.mk.injEq] at h
    obtain ⟨rfl, rfl⟩ := h
    rfl

theorem qmem_init_generation {s s' : PoolState} (h : qmem_init s = some s') :
    s'.generation = s.generation := by
  unfold qmem_init at h
  split_ifs at h with h1 h2
  · simp only [Option.some.injEq] at h
    exact h ▸ rfl

/-- `qmem_free_ptrs` bumps the generation on every call, whether or not a
reclaim happened. -/
theorem qmem_free_ptrs_generation (s : PoolState) :
    (qmem_free_ptrs s).generation = s.generation + 1 := by
  unfold qmem_free_ptrs
  split_ifs with h
  · rfl
  · rfl

theorem qmem_clear_generation {s s' : PoolState} (h : qmem_clear s = some s') :
    s'.generation = s.generation + 1 := by
  unfold qmem_clear at h
  split_ifs at h with h1
  · simp only [Option.some.injEq] at h
    exact h ▸ rfl

theorem stepOpX_generation {op : QmemOpX} {s s' : PoolState}
    (h : stepOpX op s = some s') :
    s.generation ≤ s'.generation ∧
    (isReclaimOp op = true → s.generation < s'.generation) := by
  cases op with
  | hardReclaim =>
    exact ⟨by rw [qmem_clear_generation h]; omega, fun _ => by
      rw [qmem_clear_generation h]; omega⟩
  | base op =>
    cases op with
    | opInit =>
      exact ⟨le_of_eq (qmem_init_generation h).symm, by intro hc; simp [isReclaimOp] at hc⟩
    | alloc n =>
      rcases hm : qmem_malloc n s with _ | ⟨b, s2⟩
      · simp [stepOpX, stepOp, hm] at h
      · simp only [stepOpX, stepOp, hm, Option.map_some', Option.some.injEq] at h
        refine ⟨le_of_eq ?_, by intro hc; simp [isReclaimOp] at hc⟩
        rw [← h]
        exact (qmem_malloc_generation hm).symm
    | alloc0 n =>
      rcases hm : qmem_malloc n s with _ | ⟨b, s2⟩
      · simp [stepOpX, stepOp, qmem_malloc0, hm] at h
      · simp only [stepOpX, stepOp, qmem_malloc0, hm, Option.map_some',
          Option.some.injEq] at h
        refine ⟨le_of_eq ?_, by intro hc; simp [isReclaimOp] at hc⟩
        rw [← h]
        exact (qmem_malloc_generation hm).symm
    | allocTmp n =>
      rcases hm : qmem_malloc_tmp n s with _ | ⟨b, s2⟩
      · simp [stepOpX, stepOp, hm] at h
      · simp only [stepOpX, stepOp, hm, Option.map_some', Option.some.injEq] at h
        refine ⟨le_of_eq ?_, by intro hc; simp [isReclaimOp] at hc⟩
        rw [← h]
        exact (qmem_malloc_tmp_generation hm).symm
    | softReclaim =>
      simp only [stepOpX, stepOp, Option.some.injEq] at h
      rw [← h, qmem_free_ptrs_generation]
      exact ⟨by omega, fun _ => by omega⟩

theorem runOpsX_generation (ops : List QmemOpX) (s s' : PoolState)
    (h : runOpsX ops s = some s') :
    s.generation ≤ s'.generation ∧
    (ops.any isReclaimOp = true → s.generation < s'.generation) := by
  induction ops generalizing s with
  | nil =>
    simp only [runOpsX, Option.some.injEq] at h
    exact ⟨le_of_eq (h ▸ rfl), by simp⟩
  | cons op rest ih =>
    rcases hstep : stepOpX op s with _ | s1
    · simp [runOpsX, hstep] at h
    · simp only [runOpsX, hstep] at h
      obtain ⟨h1, h2⟩ := stepOpX_generation hstep
      obtain ⟨h3, h4⟩ := ih s1 h
      refine ⟨le_trans h1 h3, ?_⟩
      intro hc
      simp only [List.any_cons, Bool.or_eq_true] at hc
      rcases hc with hc | hc
      · exact lt_of_lt_of_le (h2 hc) h3
      · exact lt_of_le_of_lt h1 (h4 hc)

/-! ### Answer assemblers: base state machine (`net_ansgen_t`) -/

inductive AnsgenState where
  | st_ansgen_wait
  | st_ansgen_error
  | st_ansgen_done
deriving DecidableEq, Repr

/-- The answer's status field (`nq_error` / `nq_ok`; `nq_none` is the zeroed
value produced by `qmem_malloc0` at creation). -/
inductive NqState where
  | nq_none
  | nq_error
  | nq_ok
deriving DecidableEq, Repr

structure NetAnsgen where
  state : AnsgenState
  qmem_req_generation : Int
  ans_state : NqState
  ans_res : String
  ans_res_len : Nat
deriving DecidableEq, Repr

/-- `net_ansgen_is_alive`: the captured generation equals the pool's current
generation. -/
def net_ansgen_is_alive (a : NetAnsgen) (gen : Nat) : Bool :=
  a.qmem_req_generation == (gen : Int)

/-- The base fields installed by `mc_ansgen_packet_create` /
`sql_ansgen_packet_create`: capture the current generation, start Waiting,
zero-filled answer. -/
def net_ansgen_create (gen : Nat) : NetAnsgen :=
  { state := .st_ansgen_wait, qmem_req_generation := (gen : Int),
    ans_state := .nq_none, ans_res := "", ans_res_len := 0 }

/-- `net_ansgen_timeout`: asserts Waiting (`none` models the failed assert);
if alive, record the timeout error and set the captured generation to the
sentinel `-1`.  The base `state` field is left untouched. -/
def net_ansgen_timeout (gen : Nat) (a : NetAnsgen) : Option NetAnsgen :=
  if a.state = .st_ansgen_wait then
    if net_ansgen_is_alive a gen then
      some { a with
        ans_state := .nq_error, ans_res := "Timeout", qmem_req_generation := -1 }
    else some a
  else none

/-- `net_ansgen_error`: asserts Waiting; if alive, record the message; always
moves the base state to Error. -/
def net_ansgen_error (gen : Nat) (v : String) (a : NetAnsgen) : Option NetAnsgen :=
  if a.state = .st_ansgen_wait then
    let a1 := if net_ansgen_is_alive a gen then
        { a with ans_state := .nq_error, ans_res := v } else a
    some { a1 with state := .st_ansgen_error }
  else none

/-- C2: `soft_reclaim` (`qmem_free_ptrs`) and `hard_reclaim` (`qmem_clear`)
never decrease the generation counter — each bumps it by exactly one,
`soft_reclaim` on every call regardless of whether a reclaim happened — and an
assembler that captured the pool generation before a sequence of operations
containing at least one reclaim is never alive afterwards. -/
theorem generation_monotonic_staleness :
    (∀ s : PoolState, (qmem_free_ptrs s).generation = s.generation + 1) ∧
    (∀ s s' : PoolState, qmem_clear s = some s' →
      s'.generation = s.generation + 1) ∧
    (∀ (ops : List QmemOpX) (s s' : PoolState), runOpsX ops s = some s' →
      s.generation ≤ s'.generation) ∧
    (∀ (ops : List QmemOpX) (s s' : PoolState) (a : NetAnsgen),
      a.qmem_req_generation = (s.generation : Int) →
      ops.any isReclaimOp = true →
      runOpsX ops s = some s' →
      net_ansgen_is_alive a s'.generation = false) := by
  refine ⟨qmem_free_ptrs_generation, fun s s' h => qmem_clear_generation h,
    fun ops s s' h => (runOpsX_generation ops s s' h).1, ?_⟩
  intro ops s s' a hreq hrec h
  have hlt : s.generation < s'.generation := (runOpsX_generation ops s s' h).2 hrec
  simp only [net_ansgen_is_alive, hreq, beq_eq_false_iff_ne, ne_eq, Nat.cast_inj]
  omega

theorem generation_monotonic_staleness_witness :
    net_ansgen_is_alive (net_ansgen_create 0)
      ({ postInitState with
          left := [], used_mem := 0, live := [],
          inited := false, generation := 1 } : PoolState).generation = false ∧
    ({ postInitState with
        left := [], used_mem := 0, live := [],
        inited := false, generation := 1 } : PoolState).generation =
      postInitState.generation + 1 :=
  ⟨generation_monotonic_staleness.2.2.2 [QmemOpX.hardReclaim] postInitState _
      (net_ansgen_create 0) (by decide) (by decide) (by decide),
   generation_monotonic_staleness.2.1 postInitState _ (by decide)⟩

/-- C3 counterexample: a live assembler in the Waiting base state receives
`timeout()`; the claim says the assembler then leaves Waiting for a terminal
Timeout state, but the code never writes the base `state` field in
`net_ansgen_timeout` — the assembler is still Waiting afterwards (there is no
Timeout base state at all: only Waiting, Error, Done occur). -/
theorem net_ansgen_timeout_counterexample :
    net_ansgen_is_alive (net_ansgen_create 0) 0 = true ∧
    (net_ansgen_create 0).state = AnsgenState.st_ansgen_wait ∧
    ∃ a', net_ansgen_timeout 0 (net_ansgen_create 0) = some a' ∧
      a'.state = AnsgenState.st_ansgen_wait :=
  ⟨rfl, rfl,
    ⟨⟨.st_ansgen_wait, -1, .nq_error, "Timeout", 0⟩, by decide, rfl⟩⟩

/-- C3 (amended): for an alive assembler in the Waiting base state, `timeout()`
finalizes the result as the error `"Timeout"` and sets the captured generation
to the sentinel `-1`, which can never equal any pool generation (so the
assembler is permanently dead); the base state, however, remains Waiting — the
code has no separate Timeout state. -/
theorem net_ansgen_timeout_behavior (gen : Nat) (a : NetAnsgen)
    (hw : a.state = .st_ansgen_wait)
    (halive : net_ansgen_is_alive a gen = true) :
    net_ansgen_timeout gen a =
      some { a with
        ans_state := .nq_error, ans_res := "Timeout", qmem_req_generation := -1 } ∧
    (∀ g : Nat, net_ansgen_is_alive
      { a with
        ans_state := .nq_error, ans_res := "Timeout", qmem_req_generation := -1 }
      g = false) ∧
    ({ a with
        ans_state := .nq_error, ans_res := "Timeout", qmem_req_generation := -1 }
      : NetAnsgen).state = AnsgenState.st_ansgen_wait := by
  refine ⟨by simp [net_ansgen_timeout, hw, halive], ?_, hw⟩
  intro g
  simp only [net_ansgen_is_alive, beq_eq_false_iff_ne, ne_eq]
  omega

theorem net_ansgen_timeout_behavior_witness :
    net_ansgen_timeout 3 (net_ansgen_create 3) =
      some { net_ansgen_create 3 with
        ans_state := .nq_error, ans_res := "Timeout", qmem_req_generation := -1 } ∧
    net_ansgen_is_alive { net_ansgen_create 3 with
      ans_state := .nq_error, ans_res := "Timeout", qmem_req_generation := -1 } 3 = false :=
  ⟨(net_ansgen_timeout_behavior 3 (net_ansgen_create 3) rfl (by decide)).1,
   (net_ansgen_timeout_behavior 3 (net_ansgen_create 3) rfl (by decide)).2.1 3⟩

/-! ### Memcached answer assembler (`mc_ansgen_packet_t`) -/

inductive McPacketState where
  | ap_any
  | ap_get
  | ap_store
  | ap_version
  | ap_other
deriving DecidableEq, Repr

structure McAnsgenPacket where
  base : NetAnsgen
  state : McPacketState
  str_buf : String
deriving DecidableEq, Repr

/-- `mc_ansgen_packet_create`: sub-state Undetermined, empty flat buffer. -/
def mc_ansgen_packet_create (gen : Nat) : McAnsgenPacket :=
  { base := net_ansgen_create gen, state := .ap_any, str_buf := "" }

/-- `mc_ansgen_packet_value`: a VALUE fragment; commits `ap_get` from
Undetermined, errors on a committed non-Get sub-state, else (if alive)
appends the fragment to the flat buffer. -/
def mc_ansgen_packet_value (gen : Nat) (reader : String) (m : McAnsgenPacket) :
    Option McAnsgenPacket :=
  let m := if m.state = .ap_any then { m with state := .ap_get } else m
  if m.state ≠ .ap_get then
    (net_ansgen_error gen "Unexpected VALUE" m.base).map fun b => { m with base := b }
  else if net_ansgen_is_alive m.base gen then
    some { m with str_buf := m.str_buf ++ reader }
  else
    some m

/-- `mc_ansgen_packet_end`: the end-of-results marker; asserts the Waiting base
state, commits `ap_get` from Undetermined, errors on a non-Get sub-state, else
finalizes with the `"END\r\n"` marker appended. -/
def mc_ansgen_packet_end (gen : Nat) (m : McAnsgenPacket) : Option McAnsgenPacket :=
  if m.base.state ≠ .st_ansgen_wait then none
  else
    let m := if m.state = .ap_any then { m with state := .ap_get } else m
    if m.state ≠ .ap_get then
      (net_ansgen_error gen "Unexpected END" m.base).map fun b => { m with base := b }
    else if net_ansgen_is_alive m.base gen then
      let sb := m.str_buf ++ "END\r\n"
      some { m with
        str_buf := sb,
        base := { m.base with
          ans_state := .nq_ok, ans_res := sb, ans_res_len := sb.length,
          state := .st_ansgen_done } }
    else
      some { m with base := { m.base with state := .st_ansgen_done } }

/-- `mc_ansgen_packet_xstored`: a STORED / NOT_STORED fragment; commits
`ap_store` from Undetermined, errors on a non-Store sub-state, else finalizes
with the corresponding text. -/
def mc_ansgen_packet_xstored (gen : Nat) (is_stored : Bool) (m : McAnsgenPacket) :
    Option McAnsgenPacket :=
  let m := if m.state = .ap_any then { m with state := .ap_store } else m
  if m.state ≠ .ap_store then
    (net_ansgen_error gen "Unexpected STORED" m.base).map fun b => { m with base := b }
  else if net_ansgen_is_alive m.base gen then
    let sb := m.str_buf ++ (if is_stored then "STORED\r\n" else "NOT_STORED\r\n")
    some { m with
      str_buf := sb,
      base := { m.base with
        ans_state := .nq_ok, ans_res := sb, ans_res_len := sb.length,
        state := .st_ansgen_done } }
  else
    some { m with base := { m.base with state := .st_ansgen_done } }

/-- `mc_ansgen_packet_other`: any other single-line answer; commits `ap_other`
from Undetermined, errors on a non-Other sub-state, else finalizes. -/
def mc_ansgen_packet_other (gen : Nat) (reader : String) (m : McAnsgenPacket) :
    Option McAnsgenPacket :=
  let m := if m.state = .ap_any then { m with state := .ap_other } else m
  if m.state ≠ .ap_other then
    (net_ansgen_error gen "Unexpected \"other\" command" m.base).map fun b =>
      { m with base := b }
  else if net_ansgen_is_alive m.base gen then
    let sb := m.str_buf ++ reader
    some { m with
      str_buf := sb,
      base := { m.base with
        ans_state := .nq_ok, ans_res := sb, ans_res_len := sb.length,
        state := .st_ansgen_done } }
  else
    some { m with base := { m.base with state := .st_ansgen_done } }

/-- `mc_ansgen_packet_version`: a VERSION fragment.  Note the asymmetry with
the other handlers: if the sub-state is not already `ap_version` the fragment
is silently dropped — there is no commit from Undetermined and no error. -/
def mc_ansgen_packet_version (gen : Nat) (reader : String) (m : McAnsgenPacket) :
    McAnsgenPacket :=
  if m.state ≠ .ap_version then m
  else if net_ansgen_is_alive m.base gen then
    let sb := m.str_buf ++ reader
    { m with
      str_buf := sb,
      base := { m.base with
        ans_state := .nq_ok, ans_res := sb, ans_res_len := sb.length,
        state := .st_ansgen_done } }
  else
    { m with base := { m.base with state := .st_ansgen_done } }

/-- `mc_ansgen_packet_set_query_type`: query type 1 selects the Version
sub-state; any other type is ignored. -/
def mc_ansgen_packet_set_query_type (gen : Nat) (query_type : Int)
    (m : McAnsgenPacket) : Option McAnsgenPacket :=
  let new_state := if query_type = 1 then McPacketState.ap_version else .ap_any
  if new_state = .ap_any then some m
  else
    let m := if m.state = .ap_any then { m with state := new_state } else m
    if m.state ≠ new_state then
      (net_ansgen_error gen "Can\x27t determine query type" m.base).map fun b =>
        { m with base := b }
    else some m

/-- The assembler after a mismatch error: answer flagged as the given error
message (the assembler is assumed alive), base state Error, sub-state kept. -/
def mcErrorResult (msg : String) (m : McAnsgenPacket) : McAnsgenPacket :=
  { m with base := { m.base with
      ans_state := .nq_error, ans_res := msg, state := .st_ansgen_error } }

/-- The assembler after a finalizing fragment: buffer grown to `sb`, answer ok,
base state Done, sub-state `st`. -/
def mcDoneResult (sb : String) (st : McPacketState) (m : McAnsgenPacket) :
    McAnsgenPacket :=
  { m with
    state := st, str_buf := sb,
    base := { m.base with
      ans_state := .nq_ok, ans_res := sb, ans_res_len := sb.length,
      state := .st_ansgen_done } }

/-- C4 counterexample: a live memcached assembler in the Undetermined sub-state
receives its first classifying fragment, a `version` fragment — the claim says
this commits the sub-state (and later mismatches raise
`error("unexpected version")`), but the code leaves the assembler completely
unchanged: no commit, no error. -/
theorem mc_version_counterexample :
    (mc_ansgen_packet_create 0).state = McPacketState.ap_any ∧
    net_ansgen_is_alive (mc_ansgen_packet_create 0).base 0 = true ∧
    mc_ansgen_packet_version 0 "1.2.8" (mc_ansgen_packet_create 0) =
      mc_ansgen_packet_create 0 :=
  ⟨rfl, rfl, rfl⟩

/-- C4 (amended): for a live memcached assembler whose base state is Waiting:
the four fragment kinds `value` / `end` / `stored` / `other` commit the
sub-state on the first classifying fragment, and any of them delivered in a
committed sub-state of a different kind raises
`error("Unexpected <fragment-kind>")`; `version` fragments are the exception —
they never commit the sub-state and are silently dropped whenever the
sub-state is not already Version (which only `set_query_type` can select). -/
theorem mc_commit_or_error (gen : Nat) (m : McAnsgenPacket) (reader : String)
    (is_stored : Bool)
    (hw : m.base.state = .st_ansgen_wait)
    (halive : net_ansgen_is_alive m.base gen = true) :
    (m.state = .ap_any →
      mc_ansgen_packet_value gen reader m =
        some { m with state := .ap_get, str_buf := m.str_buf ++ reader } ∧
      mc_ansgen_packet_end gen m =
        some (mcDoneResult (m.str_buf ++ "END\r\n") .ap_get m) ∧
      mc_ansgen_packet_xstored gen is_stored m =
        some (mcDoneResult
          (m.str_buf ++ (if is_stored then "STORED\r\n" else "NOT_STORED\r\n"))
          .ap_store m) ∧
      mc_ansgen_packet_other gen reader m =
        some (mcDoneResult (m.str_buf ++ reader) .ap_other m) ∧
      mc_ansgen_packet_version gen reader m = m) ∧
    (m.state ≠ .ap_any → m.state ≠ .ap_get →
      mc_ansgen_packet_value gen reader m =
        some (mcErrorResult "Unexpected VALUE" m) ∧
      mc_ansgen_packet_end gen m =
        some (mcErrorResult "Unexpected END" m)) ∧
    (m.state ≠ .ap_any → m.state ≠ .ap_store →
      mc_ansgen_packet_xstored gen is_stored m =
        some (mcErrorResult "Unexpected STORED" m)) ∧
    (m.state ≠ .ap_any → m.state ≠ .ap_other →
      mc_ansgen_packet_other gen reader m =
        some (mcErrorResult "Unexpected \"other\" command" m)) ∧
    (m.state ≠ .ap_version →
      mc_ansgen_packet_version gen reader m = m) := by
  refine ⟨?_, ?_, ?_, ?_, ?_⟩
  · intro hst
    refine ⟨?_, ?_, ?_, ?_, ?_⟩
    · simp [mc_ansgen_packet_value, hst, halive]
    · simp [mc_ansgen_packet_end, hw, hst, halive, mcDoneResult]
    · simp [mc_ansgen_packet_xstored, hst, halive, mcDoneResult]
    · simp [mc_ansgen_packet_other, hst, halive, mcDoneResult]
    · simp [mc_ansgen_packet_version, hst]
  · intro hst1 hst2
    constructor
    · simp [mc_ansgen_packet_value, hst1, hst2, net_ansgen_error, hw, halive,
        mcErrorResult]
    · simp [mc_ansgen_packet_end, hw, hst1, hst2, net_ansgen_error, halive,
        mcErrorResult]
  · intro hst1 hst2
    simp [mc_ansgen_packet_xstored, hst1, hst2, net_ansgen_error, hw, halive,
      mcErrorResult]
  · intro hst1 hst2
    simp [mc_ansgen_packet_other, hst1, hst2, net_ansgen_error, hw, halive,
      mcErrorResult]
  · intro hst
    simp [mc_ansgen_packet_version, hst]

theorem mc_commit_or_error_witness :
    (mc_ansgen_packet_value 0 "ab" (mc_ansgen_packet_create 0) =
      some { mc_ansgen_packet_create 0 with state := .ap_get, str_buf := "ab" }) ∧
    (mc_ansgen_packet_xstored 0 true
        { mc_ansgen_packet_create 0 with state := .ap_get } =
      some (mcErrorResult "Unexpected STORED"
        { mc_ansgen_packet_create 0 with state := .ap_get })) ∧
    (mc_ansgen_packet_version 0 "1.2.8"
        { mc_ansgen_packet_create 0 with state := .ap_get } =
      { mc_ansgen_packet_create 0 with state := .ap_get }) :=
  ⟨by
    have h := (mc_commit_or_error 0 (mc_ansgen_packet_create 0) "ab" true rfl
      (by decide)).1 rfl
    simpa using h.1,
   (mc_commit_or_error 0 { mc_ansgen_packet_create 0 with state := .ap_get }
      "x" true rfl (by decide)).2.2.1 (by decide) (by decide),
   (mc_commit_or_error 0 { mc_ansgen_packet_create 0 with state := .ap_get }
      "1.2.8" true rfl (by decide)).2.2.2.2 (by decide)⟩

/-! ### Ring queues (`StaticQueue<DataT, N>`)

The backing array `q` is a list of length `N`; `beginIdx` / `endIdx` / `cnt`
mirror the C fields `begin` / `end` / `cnt`.  `create` returns the index of the
reserved slot (the C version returns `&q[end]`); the caller then fills the slot
through `writeAt`. -/

structure StaticQueue (α : Type) (N : Nat) where
  q : List α
  beginIdx : Nat
  endIdx : Nat
  cnt : Nat
deriving DecidableEq, Repr

/-- `StaticQueue::clear` / the zero-initialized queue. -/
def SQclear (α : Type) (N : Nat) (q0 : List α) : StaticQueue α N :=
  { q := q0, beginIdx := 0, endIdx := 0, cnt := 0 }

/-- `StaticQueue::empty` -/
def SQempty {α : Type} {N : Nat} (s : StaticQueue α N) : Bool :=
  s.cnt == 0

/-- `StaticQueue::create`: `nullptr` (`none`) when `cnt == N`, else reserve the
slot at `end`, advancing `end` with wraparound. -/
def SQcreate {α : Type} {N : Nat} (s : StaticQueue α N) :
    Option Nat × StaticQueue α N :=
  if s.cnt = N then (none, s)
  else
    let res := s.endIdx
    let e1 := s.endIdx + 1
    (some res, { s with endIdx := if e1 = N then 0 else e1, cnt := s.cnt + 1 })

/-- `StaticQueue::undo_create(event)`: assert the handle is the most recent
not-yet-popped record (`none` models the failed assert), then roll `end` back. -/
def SQundo_create {α : Type} {N : Nat} (h : Nat) (s : StaticQueue α N) :
    Option (StaticQueue α N) :=
  let old_end := if s.endIdx = 0 then N - 1 else s.endIdx - 1
  if h = old_end then
    some { s with endIdx := old_end, cnt := s.cnt - 1 }
  else none

/-- `StaticQueue::pop`: `nullptr` (`none`) when empty, else the record at
`begin`, advancing `begin` with wraparound. -/
def SQpop {α : Type} {N : Nat} [Inhabited α] (s : StaticQueue α N) :
    Option α × StaticQueue α N :=
  if s.cnt = 0 then (none, s)
  else
    let res := s.q.getD s.beginIdx default
    let b1 := s.beginIdx + 1
    (some res, { s with beginIdx := if b1 = N then 0 else b1, cnt := s.cnt - 1 })

/-- The caller writing the record through the pointer returned by `create`. -/
def writeAt {α : Type} {N : Nat} (h : Nat) (v : α) (s : StaticQueue α N) :
    StaticQueue α N :=
  { s with q := s.q.set h v }

/-- Well-formedness of the ring: full backing array, `begin` in range, load at
most `N`, and `end` derived from `begin + cnt` modulo `N`. -/
def SQwf {α : Type} {N : Nat} (s : StaticQueue α N) : Prop :=
  s.q.length = N ∧ s.beginIdx < N ∧ s.cnt ≤ N ∧
  s.endIdx = (s.beginIdx + s.cnt) % N

/-- The abstract contents: the `cnt` records starting at `begin`, in queue
order. -/
def SQabs {α : Type} {N : Nat} [Inhabited α] (s : StaticQueue α N) : List α :=
  (List.range s.cnt).map fun i => s.q.getD ((s.beginIdx + i) % N) default

/-! The reference model: a plain list bounded by the capacity. -/

inductive RingOp (α : Type) where
  | push (v : α)
  | pop
deriving DecidableEq, Repr

inductive RingOut (α : Type) where
  | pushOk
  | queueFull
  | popped (v : Option α)
deriving DecidableEq, Repr

/-- `create` followed by the caller writing `v` into the returned slot —
the pattern of every call site (`alloc_net_event`, `create_net_query`). -/
def SQpush {α : Type} {N : Nat} (v : α) (s : StaticQueue α N) :
    RingOut α × StaticQueue α N :=
  match SQcreate s with
  | (none, s') => (.queueFull, s')
  | (some h, s') => (.pushOk, writeAt h v s')

def SQstep {α : Type} {N : Nat} [Inhabited α] :
    RingOp α → StaticQueue α N → RingOut α × StaticQueue α N
  | .push v, s => SQpush v s
  | .pop, s =>
    let r := SQpop s
    (.popped r.1, r.2)

def SQrun {α : Type} {N : Nat} [Inhabited α] :
    List (RingOp α) → StaticQueue α N → List (RingOut α) × StaticQueue α N
  | [], s => ([], s)
  | op :: ops, s =>
    let r := SQstep op s
    let rest := SQrun ops r.2
    (r.1 :: rest.1, rest.2)

def Lpush {α : Type} (N : Nat) (v : α) (l : List α) : RingOut α × List α :=
  if l.length = N then (.queueFull, l) else (.pushOk, l ++ [v])

def Lpop {α : Type} : List α → RingOut α × List α
  | [] => (.popped none, [])
  | a :: rest => (.popped (some a), rest)

def Lstep {α : Type} (N : Nat) : RingOp α → List α → RingOut α × List α
  | .push v, l => Lpush N v l
  | .pop, l => Lpop l

def Lrun {α : Type} (N : Nat) : List (RingOp α) → List α → List (RingOut α) × List α
  | [], l => ([], l)
  | op :: ops, l =>
    let r := Lstep N op l
    let rest := Lrun N ops r.2
    (r.1 :: rest.1, rest.2)

/-! ### Ring-queue lemmas -/

theorem getD_set_ne {α : Type} (l : List α) (i j : Nat) (v d : α) (hne : i ≠ j) :
    (l.set i v).getD j d = l.getD j d := by
  induction l generalizing i j with
  | nil => rfl
  | cons a t ih =>
    cases i with
    | zero =>
      cases j with
      | zero => exact absurd rfl hne
      | succ m => simp [List.set]
    | succ k =>
      cases j with
      | zero => simp [List.set]
      | succ m =>
        simp only [List.set, List.getD_cons_succ]
        exact ih k m (by omega)

theorem getD_set_self {α : Type} (l : List α) (i : Nat) (v d : α)
    (hl : i < l.length) : (l.set i v).getD i d = v := by
  induction l generalizing i with
  | nil => simp at hl
  | cons a t ih =>
    cases i with
    | zero => simp [List.set]
    | succ k =>
      simp only [List.set, List.getD_cons_succ]
      exact ih k (by simpa using hl)

theorem succ_mod (N x : Nat) (hN : 0 < N) :
    (x + 1) % N = if x % N + 1 = N then 0 else x % N + 1 := by
  rcases Nat.lt_or_ge 1 N with h1 | h1
  · have h1' : 1 % N = 1 := Nat.mod_eq_of_lt h1
    rw [Nat.add_mod, h1']
    have hx : x % N < N := Nat.mod_lt _ hN
    by_cases h : x % N + 1 = N
    · rw [if_pos h, h, Nat.mod_self]
    · rw [if_neg h, Nat.mod_eq_of_lt (by omega)]
  · have hN1 : N = 1 := by omega
    subst hN1
    simp [Nat.mod_one]

theorem window_ne {N b cnt i : Nat} (_hb : b < N) (hcnt : cnt < N) (hi : i < cnt) :
    (b + i) % N ≠ (b + cnt) % N := by
  intro h
  have h2 : i ≡ cnt [MOD N] := Nat.ModEq.add_left_cancel' b h
  have h3 : i % N = cnt % N := h2
  rw [Nat.mod_eq_of_lt (by omega), Nat.mod_eq_of_lt hcnt] at h3
  omega

theorem SQabs_length {α : Type} {N : Nat} [Inhabited α] (s : StaticQueue α N) :
    (SQabs s).length = s.cnt := by
  simp [SQabs]

theorem SQcreate_full {α : Type} {N : Nat} (s : StaticQueue α N)
    (h : s.cnt = N) : SQcreate s = (none, s) := by
  simp [SQcreate, h]

theorem SQpush_ok {α : Type} {N : Nat} [Inhabited α] (v : α)
    (s : StaticQueue α N) (hwf : SQwf s) (h : s.cnt ≠ N) :
    (SQpush v s).1 = .pushOk ∧ SQwf (SQpush v s).2 ∧
    SQabs (SQpush v s).2 = SQabs s ++ [v] := by
  obtain ⟨hq, hb, hc, he⟩ := hwf
  have hN : 0 < N := by omega
  have hcnt : s.cnt < N := by omega
  have hpush : SQpush v s =
      (.pushOk, { s with
        q := s.q.set s.endIdx v,
        endIdx := if s.endIdx + 1 = N then 0 else s.endIdx + 1,
        cnt := s.cnt + 1 }) := by
    simp [SQpush, SQcreate, h, writeAt]
  rw [hpush]
  dsimp only [SQwf, SQabs]
  refine ⟨rfl, ⟨by simpa using hq, hb, by omega, ?_⟩, ?_⟩
  · rw [he, ← succ_mod N (s.beginIdx + s.cnt) hN]
    congr 1
  · rw [List.range_succ, List.map_append]
    congr 1
    · apply List.map_congr_left
      intro i hi
      have hiw : i < s.cnt := by simpa using hi
      apply getD_set_ne
      rw [he]
      exact (window_ne hb hcnt hiw).symm
    · simp only [List.map_cons, List.map_nil, List.cons.injEq, and_true]
      rw [he]
      exact getD_set_self _ _ _ _ (by rw [hq]; exact Nat.mod_lt _ hN)

theorem SQpop_empty {α : Type} {N : Nat} [Inhabited α] (s : StaticQueue α N)
    (h : s.cnt = 0) : SQpop s = (none, s) := by
  simp [SQpop, h]

theorem SQabs_empty {α : Type} {N : Nat} [Inhabited α] (s : StaticQueue α N)
    (h : s.cnt = 0) : SQabs s = [] := by
  simp [SQabs, h]

theorem SQpop_ok {α : Type} {N : Nat} [Inhabited α] (s : StaticQueue α N)
    (hwf : SQwf s) (h : s.cnt ≠ 0) :
    (SQpop s).1 = some (s.q.getD s.beginIdx default) ∧ SQwf (SQpop s).2 ∧
    SQabs s = s.q.getD s.beginIdx default :: SQabs (SQpop s).2 := by
  obtain ⟨hq, hb, hc, he⟩ := hwf
  have hN : 0 < N := by omega
  have hpop : SQpop s =
      (some (s.q.getD s.beginIdx default), { s with
        beginIdx := if s.beginIdx + 1 = N then 0 else s.beginIdx + 1,
        cnt := s.cnt - 1 }) := by
    simp [SQpop, h]
  rw [hpop]
  have hb' : (if s.beginIdx + 1 = N then 0 else s.beginIdx + 1) =
      (s.beginIdx + 1) % N := by
    rw [succ_mod N s.beginIdx hN, Nat.mod_eq_of_lt hb]
  dsimp only [SQwf, SQabs]
  refine ⟨rfl, ⟨hq, ?_, by omega, ?_⟩, ?_⟩
  · rw [hb']
    exact Nat.mod_lt _ hN
  · rw [hb', he, Nat.mod_add_mod]
    congr 1
    omega
  · obtain ⟨k, hk⟩ : ∃ k, s.cnt = k + 1 := ⟨s.cnt - 1, by omega⟩
    rw [hk]
    rw [List.range_succ_eq_map, List.map_cons, List.map_map]
    simp only [Nat.add_sub_cancel]
    congr 1
    · rw [Nat.add_zero, Nat.mod_eq_of_lt hb]
    · apply List.map_congr_left
      intro i _
      simp only [Function.comp_apply]
      rw [hb', Nat.mod_add_mod]
      congr 2
      omega

/-- C6: `undo_create` immediately after a successful `create` (the handle being
the one `create` returned, nothing popped in between) restores the ring queue
exactly — same backing array, `begin`, `end` and `cnt` — including when
`create` wrapped `end` around the buffer boundary. -/
theorem SQundo_create_roundtrip {α : Type} {N : Nat} (s s₁ : StaticQueue α N)
    (h : Nat) (hc : SQcreate s = (some h, s₁)) : SQundo_create h s₁ = some s := by
  obtain ⟨q, b, e, c⟩ := s
  by_cases hfull : c = N
  · simp [SQcreate, hfull] at hc
  · simp only [SQcreate, if_neg hfull, Prod.mk.injEq, Option.some.injEq] at hc
    obtain ⟨rfl, rfl⟩ := hc
    by_cases hwrap : e + 1 = N
    · rw [if_pos hwrap]
      have he : e = N - 1 := by omega
      subst he
      simp [SQundo_create]
    · rw [if_neg hwrap]
      simp [SQundo_create]

instance SQwfDecidable {α : Type} {N : Nat} [DecidableEq α]
    (s : StaticQueue α N) : Decidable (SQwf s) := by
  unfold SQwf; infer_instance

theorem SQstep_sim {α : Type} {N : Nat} [Inhabited α] (op : RingOp α)
    (s : StaticQueue α N) (hwf : SQwf s) :
    (SQstep op s).1 = (Lstep N op (SQabs s)).1 ∧
    SQabs (SQstep op s).2 = (Lstep N op (SQabs s)).2 ∧
    SQwf (SQstep op s).2 := by
  cases op with
  | push v =>
    by_cases hfull : s.cnt = N
    · have h1 : SQpush v s = (.queueFull, s) := by
        simp [SQpush, SQcreate_full s hfull]
      have h2 : Lpush N v (SQabs s) = (.queueFull, SQabs s) := by
        simp [Lpush, SQabs_length, hfull]
      exact ⟨by simp [SQstep, Lstep, h1, h2], by simp [SQstep, Lstep, h1, h2],
        by simp [SQstep, h1]; exact hwf⟩
    · obtain ⟨hp1, hp2, hp3⟩ := SQpush_ok v s hwf hfull
      have h2 : Lpush N v (SQabs s) = (.pushOk, SQabs s ++ [v]) := by
        simp [Lpush, SQabs_length, hfull]
      exact ⟨by simp [SQstep, Lstep, h2, hp1], by simp [SQstep, Lstep, h2, hp3], hp2⟩
  | pop =>
    by_cases hempty : s.cnt = 0
    · have h1 : SQpop s = (none, s) := SQpop_empty s hempty
      have h2 : SQabs s = [] := SQabs_empty s hempty
      exact ⟨by simp [SQstep, Lstep, h1, h2, Lpop], by simp [SQstep, Lstep, h1, h2, Lpop],
        by simp [SQstep, h1]; exact hwf⟩
    · obtain ⟨hp1, hp2, hp3⟩ := SQpop_ok s hwf hempty
      refine ⟨?_, ?_, hp2⟩
      · simp [SQstep, Lstep, hp3, Lpop, hp1]
      · simp [SQstep, Lstep, hp3, Lpop]

theorem SQrun_sim {α : Type} {N : Nat} [Inhabited α] (ops : List (RingOp α))
    (s : StaticQueue α N) (hwf : SQwf s) :
    (SQrun ops s).1 = (Lrun N ops (SQabs s)).1 ∧
    SQabs (SQrun ops s).2 = (Lrun N ops (SQabs s)).2 ∧
    SQwf (SQrun ops s).2 := by
  induction ops generalizing s with
  | nil => exact ⟨rfl, rfl, hwf⟩
  | cons op rest ih =>
    obtain ⟨h1, h2, h3⟩ := SQstep_sim op s hwf
    obtain ⟨ih1, ih2, ih3⟩ := ih (SQstep op s).2 h3
    refine ⟨?_, ?_, ih3⟩
    · show (SQstep op s).1 :: (SQrun rest (SQstep op s).2).1 =
        (Lstep N op (SQabs s)).1 :: (Lrun N rest (Lstep N op (SQabs s)).2).1
      rw [h1, ih1, h2]
    · show SQabs (SQrun rest (SQstep op s).2).2 =
        (Lrun N rest (Lstep N op (SQabs s)).2).2
      rw [ih2, h2]

/-- C5: the ring queue is an exact FIFO of capacity `N`.  Any sequence of
`create`-then-write / `pop` operations from a well-formed state produces the
same outputs and the same abstract contents as a plain bounded list queue
(hence `pop` returns records exactly in creation order and yields `none` on an
empty queue); moreover `create` on a full queue (`cnt = N`) fails and leaves
the queue completely unchanged, and `pop` on an empty queue leaves it
unchanged. -/
theorem staticqueue_fifo {α : Type} [Inhabited α] {N : Nat}
    (ops : List (RingOp α)) (s : StaticQueue α N) (hwf : SQwf s) :
    (SQrun ops s).1 = (Lrun N ops (SQabs s)).1 ∧
    SQabs (SQrun ops s).2 = (Lrun N ops (SQabs s)).2 ∧
    (s.cnt = N → SQcreate s = (none, s)) ∧
    (s.cnt = 0 → SQpop s = ((none : Option α), s)) := by
  obtain ⟨h1, h2, _⟩ := SQrun_sim ops s hwf
  exact ⟨h1, h2, fun hfull => SQcreate_full s hfull, fun hempty => SQpop_empty s hempty⟩

theorem staticqueue_fifo_witness :
    ((SQrun [RingOp.push 10, RingOp.push 20, RingOp.push 30,
        RingOp.pop, RingOp.pop, RingOp.pop]
        (⟨[0, 0], 0, 0, 0⟩ : StaticQueue Nat 2)).1 =
      (Lrun 2 [RingOp.push 10, RingOp.push 20, RingOp.push 30,
        RingOp.pop, RingOp.pop, RingOp.pop]
        (SQabs (⟨[0, 0], 0, 0, 0⟩ : StaticQueue Nat 2))).1 ∧
    SQabs (SQrun [RingOp.push 10, RingOp.push 20, RingOp.push 30,
        RingOp.pop, RingOp.pop, RingOp.pop]
        (⟨[0, 0], 0, 0, 0⟩ : StaticQueue Nat 2)).2 =
      (Lrun 2 [RingOp.push 10, RingOp.push 20, RingOp.push 30,
        RingOp.pop, RingOp.pop, RingOp.pop]
        (SQabs (⟨[0, 0], 0, 0, 0⟩ : StaticQueue Nat 2))).2 ∧
    ((⟨[0, 0], 0, 0, 0⟩ : StaticQueue Nat 2).cnt = 2 →
      SQcreate (⟨[0, 0], 0, 0, 0⟩ : StaticQueue Nat 2) =
        (none, (⟨[0, 0], 0, 0, 0⟩ : StaticQueue Nat 2))) ∧
    ((⟨[0, 0], 0, 0, 0⟩ : StaticQueue Nat 2).cnt = 0 →
      SQpop (⟨[0, 0], 0, 0, 0⟩ : StaticQueue Nat 2) =
        ((none : Option Nat), (⟨[0, 0], 0, 0, 0⟩ : StaticQueue Nat 2)))) :=
  staticqueue_fifo [RingOp.push 10, RingOp.push 20, RingOp.push 30,
    RingOp.pop, RingOp.pop, RingOp.pop] ⟨[0, 0], 0, 0, 0⟩ (by decide)

theorem SQundo_create_roundtrip_witness :
    SQundo_create 1 (⟨[5, 6], 0, 0, 2⟩ : StaticQueue Nat 2) =
      some ⟨[5, 6], 0, 1, 1⟩ :=
  SQundo_create_roundtrip ⟨[5, 6], 0, 1, 1⟩ ⟨[5, 6], 0, 0, 2⟩ 1 (by decide)

/-! ### Slot registry (`init_slots` / `create_slot` / `is_valid_slot` /
`clear_slots`)

The pseudo-random source `lrand48()` is modelled as an input seed `r : Nat`. -/

def max_slot_id : Int := 1000000000

structure SlotWindow where
  begin_slot_id : Int
  end_slot_id : Int
deriving DecidableEq, Repr

/-- `init_slots`: `end = begin = lrand48() % (max_slot_id / 4) + 1`. -/
def init_slots (r : Nat) : SlotWindow :=
  let v : Int := (r : Int) % (max_slot_id / 4) + 1
  ⟨v, v⟩

/-- `create_slot`: `-1` once `end` exceeds the maximum, else `end++`. -/
def create_slot (w : SlotWindow) : Int × SlotWindow :=
  if w.end_slot_id > max_slot_id then (-1, w)
  else (w.end_slot_id, { w with end_slot_id := w.end_slot_id + 1 })

/-- `is_valid_slot`: `begin <= slot_id < end`. -/
def is_valid_slot (w : SlotWindow) (slot_id : Int) : Bool :=
  decide (w.begin_slot_id ≤ slot_id ∧ slot_id < w.end_slot_id)

/-- `clear_slots`: `begin = end`, reseeding both once `begin` has drifted past
half the maximum range. -/
def clear_slots (r : Nat) (w : SlotWindow) : SlotWindow :=
  let w1 := { w with begin_slot_id := w.end_slot_id }
  if w1.begin_slot_id > max_slot_id / 2 then init_slots r else w1

/-- An operation on the registry; `invalidateAll` carries the seed consumed if
the reseed fires. -/
inductive SlotOp where
  | createSlot
  | invalidateAll (r : Nat)
deriving DecidableEq, Repr

/-- One step over the window paired with the ghost list of ids returned by
`create_slot` since the most recent `invalidateAll` (the source branch
`end_slot_id > max_slot_id` is exactly `create_slot`'s failure branch). -/
def slotStep : SlotOp → SlotWindow × List Int → SlotWindow × List Int
  | .createSlot, (w, issued) =>
    let r := create_slot w
    (r.2, if w.end_slot_id > max_slot_id then issued else issued ++ [r.1])
  | .invalidateAll r, (w, _) => (clear_slots r w, [])

def runSlots : List SlotOp → SlotWindow × List Int → SlotWindow × List Int
  | [], p => p
  | op :: ops, p => runSlots ops (slotStep op p)

/-- The correspondence invariant: the window is exactly the set of ids issued
in the current epoch. -/
def SlotInv (p : SlotWindow × List Int) : Prop :=
  p.1.begin_slot_id ≤ p.1.end_slot_id ∧
  ∀ x : Int, x ∈ p.2 ↔ (p.1.begin_slot_id ≤ x ∧ x < p.1.end_slot_id)

theorem slotInv_init (r : Nat) : SlotInv (init_slots r, []) := by
  refine ⟨le_refl _, fun x => ?_⟩
  simp only [List.not_mem_nil, false_iff, init_slots]
  omega

theorem slotInv_step (op : SlotOp) (p : SlotWindow × List Int)
    (hI : SlotInv p) : SlotInv (slotStep op p) := by
  obtain ⟨w, issued⟩ := p
  obtain ⟨hle, hmem⟩ := hI
  dsimp only at hle hmem
  cases op with
  | createSlot =>
    by_cases hmax : w.end_slot_id > max_slot_id
    · have hstep : slotStep SlotOp.createSlot (w, issued) = (w, issued) := by
        simp [slotStep, create_slot, hmax]
      rw [hstep]
      exact ⟨hle, hmem⟩
    · have hstep : slotStep SlotOp.createSlot (w, issued) =
          ({ w with end_slot_id := w.end_slot_id + 1 }, issued ++ [w.end_slot_id]) := by
        simp [slotStep, create_slot, hmax]
      rw [hstep]
      refine ⟨by dsimp only; omega, fun x => ?_⟩
      dsimp only
      rw [List.mem_append, hmem x]
      simp only [List.mem_singleton]
      omega
  | invalidateAll r =>
    have hstep : slotStep (SlotOp.invalidateAll r) (w, issued) =
        (clear_slots r w, []) := rfl
    rw [hstep]
    unfold clear_slots
    by_cases hdrift : w.end_slot_id > max_slot_id / 2
    · rw [if_pos (by simpa using hdrift)]
      exact slotInv_init r
    · rw [if_neg (by simpa using hdrift)]
      refine ⟨le_refl _, fun x => ?_⟩
      simp only [List.not_mem_nil, false_iff]
      omega

theorem runSlots_append_one (ops : List SlotOp) (op : SlotOp)
    (p : SlotWindow × List Int) :
    runSlots (ops ++ [op]) p = slotStep op (runSlots ops p) := by
  induction ops generalizing p with
  | nil => rfl
  | cons o rest ih => exact ih (slotStep o p)

theorem runSlots_inv (ops : List SlotOp) (p : SlotWindow × List Int)
    (hI : SlotInv p) : SlotInv (runSlots ops p) := by
  induction ops generalizing p with
  | nil => exact hI
  | cons op rest ih => exact ih (slotStep op p) (slotInv_step op p hI)

/-- C7: after any sequence of `create_slot` / `invalidate_all` operations from
a freshly seeded registry (including across reseeding invalidations), a slot id
tests valid exactly when it is one of the ids `create_slot` returned after the
most recent `invalidate_all` (ghost list `issued`); immediately after an
`invalidate_all` no slot at all tests valid. -/
theorem slot_validity (r0 : Nat) (ops : List SlotOp) (slot : Int) :
    (is_valid_slot (runSlots ops (init_slots r0, [])).1 slot = true ↔
      slot ∈ (runSlots ops (init_slots r0, [])).2) ∧
    (∀ r : Nat, ∀ x : Int,
      is_valid_slot
        (runSlots (ops ++ [SlotOp.invalidateAll r]) (init_slots r0, [])).1 x = false) := by
  have hI := runSlots_inv ops (init_slots r0, []) (slotInv_init r0)
  constructor
  · rw [is_valid_slot, decide_eq_true_iff]
    exact (hI.2 slot).symm
  · intro r x
    rw [runSlots_append_one]
    have hI2 := slotInv_step (SlotOp.invalidateAll r)
      (runSlots ops (init_slots r0, [])) hI
    obtain ⟨_, hmem⟩ := hI2
    have hx := (hmem x).not  -- x ∉ [] ↔ ¬(begin ≤ x < end)
    rw [is_valid_slot, decide_eq_false_iff_not]
    intro hcontra
    -- the issued list after an invalidate is []
    have hempty : (slotStep (SlotOp.invalidateAll r)
        (runSlots ops (init_slots r0, []))).2 = [] := by
      obtain ⟨w, issued⟩ := runSlots ops (init_slots r0, [])
      rfl
    rw [hempty] at hmem
    exact (by simpa using (hmem x).mpr hcontra)

theorem slot_validity_witness :
    (is_valid_slot (runSlots [SlotOp.createSlot] (init_slots 0, [])).1 1 = true ↔
      (1 : Int) ∈ (runSlots [SlotOp.createSlot] (init_slots 0, [])).2) ∧
    (∀ r : Nat, ∀ x : Int,
      is_valid_slot
        (runSlots ([SlotOp.createSlot] ++ [SlotOp.invalidateAll r])
          (init_slots 0, [])).1 x = false) :=
  slot_validity 0 [SlotOp.createSlot] 1

/-! ### Net events (`net_event_t`, `alloc_net_event`, `create_rpc_answer_event`) -/

inductive net_event_type_t where
  | ne_rpc_answer
  | ne_rpc_error
deriving DecidableEq, Repr

structure net_event_t where
  slot_id : Int
  type : net_event_type_t
  result_len : Int
  has_result : Bool
  error_code : Int
  error_message : String
deriving DecidableEq, Repr

instance : Inhabited net_event_t :=
  ⟨⟨0, .ne_rpc_answer, 0, false, 0, ""⟩⟩

/-- `alloc_net_event`: `0` for an invalid slot, `-2` when the event ring is
full, else reserve a ring record and fill in its `slot_id` and `type`.  The
returned handle is the ring index (the C version returns the pointer). -/
def alloc_net_event {N : Nat} (w : SlotWindow) (slot : Int)
    (ty : net_event_type_t) (s : StaticQueue net_event_t N) :
    Int × Option Nat × StaticQueue net_event_t N :=
  if ¬ is_valid_slot w slot then (0, none, s)
  else
    match SQcreate s with
    | (none, s1) => (-2, none, s1)
    | (some h, s1) =>
      (1, some h,
        writeAt h { s1.q.getD h default with slot_id := slot, type := ty } s1)

/-- `unalloc_net_event` -/
def unalloc_net_event {N : Nat} (h : Nat) (s : StaticQueue net_event_t N) :
    Option (StaticQueue net_event_t N) :=
  SQundo_create h s

/-- `create_rpc_answer_event`: on success fill in the payload buffer (the
external `dl_allocate_safe` is modelled by the `allocOk` flag since only its
nullness is observed); when the payload allocation fails, roll the freshly
created event back via `unalloc_net_event` and return `-1`. -/
def create_rpc_answer_event {N : Nat} (w : SlotWindow) (slot len : Int)
    (allocOk : Bool) (s : StaticQueue net_event_t N) :
    Option (Int × StaticQueue net_event_t N) :=
  match alloc_net_event w slot .ne_rpc_answer s with
  | (status, none, s1) => some (status, s1)
  | (_, some h, s1) =>
    if len ≠ 0 then
      if allocOk then
        some (1, writeAt h
          { s1.q.getD h default with has_result := true, result_len := len } s1)
      else
        match unalloc_net_event h s1 with
        | none => none
        | some s2 => some (-1, s2)
    else
      some (1, writeAt h
        { s1.q.getD h default with has_result := false, result_len := len } s1)

/-- `undo_create` right after `create` rolls the indices back whatever the
caller wrote into the backing array through the returned handle. -/
theorem SQundo_after_create {α : Type} {N : Nat} (s : StaticQueue α N)
    (q' : List α) (hroom : s.cnt ≠ N) :
    SQundo_create s.endIdx
      ({ s with
        q := q',
        endIdx := if s.endIdx + 1 = N then 0 else s.endIdx + 1,
        cnt := s.cnt + 1 } : StaticQueue α N) =
      some ({ s with q := q' } : StaticQueue α N) := by
  obtain ⟨q, b, e, c⟩ := s
  dsimp only at hroom ⊢
  by_cases hwrap : e + 1 = N
  · rw [if_pos hwrap]
    have he : e = N - 1 := by omega
    subst he
    simp [SQundo_create]
  · rw [if_neg hwrap]
    simp [SQundo_create]

/-- Writing through the slot reserved at `endIdx` does not change the abstract
contents (the slot is outside the live window). -/
theorem SQabs_set_endIdx {α : Type} {N : Nat} [Inhabited α]
    (s : StaticQueue α N) (hwf : SQwf s) (hcnt : s.cnt < N) (v : α) :
    SQabs ({ s with q := s.q.set s.endIdx v } : StaticQueue α N) = SQabs s := by
  obtain ⟨hq, hb, hc, he⟩ := hwf
  dsimp only [SQabs]
  apply List.map_congr_left
  intro i hi
  apply getD_set_ne
  rw [he]
  exact (window_ne hb hcnt (by simpa using hi)).symm

/-- C10: `create_rpc_answer_event` with a valid slot, a non-zero payload
length and a failing payload allocation rolls the just-created ring record
back via `undo_create` and returns `-1`; the net-events queue ends in exactly
the state it had before the call — same `begin`, `end`, `cnt` and the same
queued records (only the scratch storage of the rolled-back slot, which lies
outside the live window, was written). -/
theorem create_rpc_answer_event_rollback {N : Nat} (w : SlotWindow)
    (slot len : Int) (s : StaticQueue net_event_t N) (hwf : SQwf s)
    (hvalid : is_valid_slot w slot = true) (hlen : len ≠ 0)
    (hroom : s.cnt ≠ N) :
    ∃ s', create_rpc_answer_event w slot len false s = some (-1, s') ∧
      s'.beginIdx = s.beginIdx ∧ s'.endIdx = s.endIdx ∧ s'.cnt = s.cnt ∧
      SQabs s' = SQabs s := by
  have hcnt : s.cnt < N := by
    obtain ⟨_, _, hc, _⟩ := hwf
    omega
  set ev : net_event_t :=
    { s.q.getD s.endIdx default with slot_id := slot, type := .ne_rpc_answer }
    with hev
  have hcreate : SQcreate s = (some s.endIdx,
      { s with
        endIdx := if s.endIdx + 1 = N then 0 else s.endIdx + 1,
        cnt := s.cnt + 1 }) := by
    simp [SQcreate, hroom]
  have halloc : alloc_net_event w slot .ne_rpc_answer s =
      (1, some s.endIdx,
        { s with
          q := s.q.set s.endIdx ev,
          endIdx := if s.endIdx + 1 = N then 0 else s.endIdx + 1,
          cnt := s.cnt + 1 }) := by
    simp only [alloc_net_event, hvalid, Bool.true_eq_false, not_false_iff,
      if_neg, hcreate, writeAt]
    rfl
  refine ⟨({ s with q := s.q.set s.endIdx ev } : StaticQueue net_event_t N),
    ?_, rfl, rfl, rfl, SQabs_set_endIdx s hwf hcnt _⟩
  simp only [create_rpc_answer_event, halloc]
  rw [if_pos hlen]
  simp only [Bool.false_eq_true, if_false, unalloc_net_event]
  rw [SQundo_after_create s _ hroom]

theorem create_rpc_answer_event_rollback_witness :
    ∃ s', create_rpc_answer_event (⟨1, 2⟩ : SlotWindow) 1 4 false
        (⟨[default, default], 0, 1, 1⟩ : StaticQueue net_event_t 2) =
        some (-1, s') ∧
      s'.beginIdx = 0 ∧ s'.endIdx = 1 ∧ s'.cnt = 1 ∧
      SQabs s' = SQabs (⟨[default, default], 0, 1, 1⟩ : StaticQueue net_event_t 2) :=
  create_rpc_answer_event_rollback ⟨1, 2⟩ 1 4
    ⟨[default, default], 0, 1, 1⟩ (by decide) (by decide) (by decide) (by decide)

/-! ### Last network error (`save_last_net_error`) -/

def MAX_NET_ERROR_LEN : Nat := 128

/-- `save_last_net_error`: `nullptr` clears the buffer; otherwise the first
`min(strlen(s), MAX_NET_ERROR_LEN - 1)` bytes are kept (the copy length is
clamped to `MAX_NET_ERROR_LEN - 1` whenever `strlen(s) >= MAX_NET_ERROR_LEN`). -/
def save_last_net_error : Option (List Char) → List Char
  | none => []
  | some s =>
    let l := s.length
    let l2 := if l ≥ MAX_NET_ERROR_LEN then MAX_NET_ERROR_LEN - 1 else l
    s.take l2

/-- C8 counterexample: the claim says the stored string equals `s` whenever
`|s| ≤ 128`, but at exactly 128 bytes the code already truncates (it keeps
only 127 bytes). -/
theorem save_last_net_error_counterexample :
    (List.replicate 128 'a').length ≤ 128 ∧
    save_last_net_error (some (List.replicate 128 'a')) ≠
      List.replicate 128 'a' := by
  constructor
  · simp
  · intro h
    have hlen := congrArg List.length h
    simp [save_last_net_error, MAX_NET_ERROR_LEN] at hlen

/-- C8 (amended): the stored network error string equals `s` exactly when
`|s| < 128` (i.e. `|s| ≤ 127`); whenever `|s| ≥ 128` the string is silently
truncated — no error is raised — to its first `127` bytes, so the stored
string differs from `s`. -/
theorem save_last_net_error_truncation (s : List Char) :
    (s.length < MAX_NET_ERROR_LEN → save_last_net_error (some s) = s) ∧
    (MAX_NET_ERROR_LEN ≤ s.length →
      save_last_net_error (some s) = s.take (MAX_NET_ERROR_LEN - 1) ∧
      save_last_net_error (some s) ≠ s) := by
  constructor
  · intro h
    simp only [save_last_net_error]
    rw [if_neg (by omega)]
    exact List.take_length s
  · intro h
    have h1 : save_last_net_error (some s) = s.take (MAX_NET_ERROR_LEN - 1) := by
      simp only [save_last_net_error]
      rw [if_pos (by omega)]
    refine ⟨h1, ?_⟩
    rw [h1]
    intro hcontra
    have hlen := congrArg List.length hcontra
    rw [List.length_take] at hlen
    simp only [MAX_NET_ERROR_LEN] at hlen h
    omega

theorem save_last_net_error_truncation_witness :
    save_last_net_error (some (List.replicate 10 'b')) = List.replicate 10 'b' ∧
    save_last_net_error (some (List.replicate 130 'b')) =
      (List.replicate 130 'b').take (MAX_NET_ERROR_LEN - 1) :=
  ⟨(save_last_net_error_truncation (List.replicate 10 'b')).1 (by decide),
   ((save_last_net_error_truncation (List.replicate 130 'b')).2 (by decide)).1⟩

end Kphp
